import Mathlib

/-!
# A shallow embedding of the persistent memory allocator

The repository ships only the unit tests of `PersistentMemoryAllocator`
(`base/metrics/persistent_memory_allocator_unittest.cc`); the allocator
implementation itself is not part of the sources.  The definitions below are
therefore modelled from the specification of the allocator (region header,
block headers, the bump-allocation path, the iterable publication list and
the defensive bounded iteration), with the unit tests acting as the final
authority wherever they pin down concrete behaviour.

The model is sequential: every public operation of the allocator is an atomic
state transition on an `Allocator` value.  Concurrency is treated as an
arbitrary interleaving of these atomic operations (`runOps`).
-/

namespace PMA

/-- Modelled from the spec: alignment applied to every block
(`kAllocAlignment`, "typically 8"; the tests use alignment 8). -/
def kAllocAlignment : Nat := 8

/-- Modelled from the spec: size of the per-block header, four 32-bit
fields `size | type | cookie | next`. -/
def kSizeOfBlockHeader : Nat := 16

/-- Modelled from the spec: size of the fixed persisted region header;
the first block starts at this offset (rounded to `kAllocAlignment`). -/
def kSizeOfRegionHeader : Nat := 64

/-- Modelled from the spec: magic number identifying an initialized region. -/
def kGlobalCookie : Nat := 0x408305DC

/-- Modelled from the spec: per-block magic written last when a block is
committed. -/
def kBlockCookieAllocated : Nat := 0xC8799269

/-- Smallest committed block: header plus one payload byte, rounded up to
the allocation alignment. -/
def kMinBlockSize : Nat := 24

/-- Round `n` up to the next multiple of `a`. -/
def alignUp (n a : Nat) : Nat := ((n + a - 1) / a) * a

/-- `true` iff `n` is a power of two. -/
def isPow2 (n : Nat) : Bool := n != 0 && (n &&& (n - 1)) == 0

/-- Modelled from the spec: per-block header, persisted in the region.
`next` is the link of the iterable list (0 = not published / end of list). -/
structure BlockHeader where
  size : Nat
  type : Nat
  cookie : Nat
  next : Nat
deriving DecidableEq

/-- Modelled from the spec: the fixed region header.  `queue` is the
implicit head of the iterable list kept at a fixed offset in the header;
`tailptr` is the lock-free append hint; `corrupt` and `full` are the sticky
flag bits. -/
structure SharedMetadata where
  cookie : Nat
  id : Nat
  name : String
  total_size : Nat
  page_size : Nat
  freeptr : Nat
  tailptr : Nat
  queue : Nat
  corrupt : Bool
  full : Bool
deriving DecidableEq

/-- The persisted bytes of a region: the header plus the block headers,
keyed by their reference (byte offset from the start of the region). -/
structure RegionImage where
  meta : SharedMetadata
  blocks : List (Nat × BlockHeader)
deriving DecidableEq

/-- An allocator attached to a region.  `meta` and `blocks` are the region
bytes; `mem_size` is the length of the byte range actually handed to this
allocator (for a file mapping, the file length); `corrupt_shadow` is the
process-local corrupt flag used when the region itself is read-only;
`allocs_histogram` is the list of size samples reported to the allocation
histogram hook. -/
structure Allocator where
  meta : SharedMetadata
  blocks : List (Nat × BlockHeader)
  mem_size : Nat
  readonly : Bool
  corrupt_shadow : Bool
  allocs_histogram : List Nat
deriving DecidableEq

/-- First-match association-list lookup of a block header by reference. -/
def lookupRef (ref : Nat) : List (Nat × BlockHeader) → Option BlockHeader
  | [] => none
  | (r, b) :: rest => if r = ref then some b else lookupRef ref rest

/-- Rewrite the first block stored under `ref` (no-op when absent). -/
def updateBlock (f : BlockHeader → BlockHeader) (ref : Nat) :
    List (Nat × BlockHeader) → List (Nat × BlockHeader)
  | [] => []
  | (r, b) :: rest =>
    if r = ref then (r, f b) :: rest else (r, b) :: updateBlock f ref rest

/-- Read the block header stored at `ref`; unallocated space reads as
zeroed bytes. -/
def getBlockHeader (a : Allocator) (ref : Nat) : BlockHeader :=
  match lookupRef ref a.blocks with
  | some b => b
  | none => ⟨0, 0, 0, 0⟩

/-- Modelled from the spec: a reference is usable iff it is non-zero,
aligned, inside `[header_end, freeptr)`, and the block it points at carries
the committed cookie. -/
def refValid (a : Allocator) (ref : Nat) : Prop :=
  ref ≠ 0 ∧ ref % kAllocAlignment = 0 ∧ kSizeOfRegionHeader ≤ ref ∧
  ref < a.meta.freeptr ∧ (getBlockHeader a ref).cookie = kBlockCookieAllocated

instance (a : Allocator) (ref : Nat) : Decidable (refValid a ref) := by
  unfold refValid; infer_instance

/-- The link leaving position `pos` of the iterable list: position 0 is the
implicit list head in the region header. -/
def nextFrom (a : Allocator) (pos : Nat) : Nat :=
  if pos = 0 then a.meta.queue else (getBlockHeader a pos).next

/-- Caller-visible identifier of the region (persisted). -/
def Id (a : Allocator) : Nat := a.meta.id

/-- Name of the region (persisted). -/
def Name (a : Allocator) : String := a.meta.name

/-- Number of region bytes in use: everything below the bump cursor. -/
def used (a : Allocator) : Nat := a.meta.freeptr

/-- Sticky out-of-space flag. -/
def IsFull (a : Allocator) : Bool := a.meta.full

/-- Sticky corruption flag: the persisted bit or the process-local shadow. -/
def IsCorrupt (a : Allocator) : Bool := a.meta.corrupt || a.corrupt_shadow

def IsReadonly (a : Allocator) : Bool := a.readonly

/-- Set the sticky corrupt flag; a read-only attach keeps it in the
process-local shadow instead of the region bytes. -/
def setCorrupt (a : Allocator) : Allocator :=
  if a.readonly then { a with corrupt_shadow := true }
  else { a with meta := { a.meta with corrupt := true } }

/-- Set the sticky full flag. -/
def setFull (a : Allocator) : Allocator :=
  { a with meta := { a.meta with full := true } }

/-- Report one size sample to the allocation histogram hook. -/
def recordSample (a : Allocator) (n : Nat) : Allocator :=
  { a with allocs_histogram := a.allocs_histogram ++ [n] }

/-- Snapshot of total and free byte counts. -/
structure MemoryInfo where
  total : Nat
  free : Nat
deriving DecidableEq

/-- Modelled from the spec: `total` is the length of the attached byte
region, `free` what is left above the bump cursor. -/
def GetMemoryInfo (a : Allocator) : MemoryInfo :=
  ⟨a.mem_size, a.mem_size - a.meta.freeptr⟩

/-- Modelled from the spec: constraints checked at construction. -/
def constructArgsOK (mem_size page_size : Nat) (readonly : Bool) : Prop :=
  mem_size ≤ 2 ^ 31 - 1 ∧ kSizeOfRegionHeader ≤ mem_size ∧
  (page_size = 0 ∨
    (isPow2 page_size = true ∧ page_size ≤ mem_size ∧
      (mem_size % page_size = 0 ∨ readonly = true)))

instance (ms ps : Nat) (ro : Bool) : Decidable (constructArgsOK ms ps ro) := by
  unfold constructArgsOK; infer_instance

/-- The allocator state resulting from attaching to an already-initialized
region: the persisted header and blocks are taken over verbatim. -/
def attachOf (mem : RegionImage) (mem_size : Nat) (readonly : Bool) : Allocator :=
  ⟨mem.meta, mem.blocks, mem_size, readonly, false, []⟩

/-- Modelled from the spec: construction inspects the persisted cookie.  A
matching cookie attaches (caller-supplied id and name are ignored); a zero
cookie on a writable attach initializes the header; anything else attaches
with the corrupt flag raised.  Constraint violations fail construction. -/
def constructAllocator (mem : RegionImage) (mem_size page_size id : Nat)
    (name : String) (readonly : Bool) : Option Allocator :=
  if constructArgsOK mem_size page_size readonly then
    if mem.meta.cookie = kGlobalCookie then
      some (attachOf mem mem_size readonly)
    else if mem.meta.cookie = 0 ∧ readonly = false then
      some ⟨⟨kGlobalCookie, id, name, mem_size, page_size, kSizeOfRegionHeader,
             0, 0, false, false⟩, [], mem_size, readonly, false, []⟩
    else
      some (setCorrupt (attachOf mem mem_size readonly))
  else none

/-- The all-zero bytes of a freshly memset region. -/
def zeroRegion : RegionImage := ⟨⟨0, 0, "", 0, 0, 0, 0, 0, false, false⟩, []⟩

/-- The allocator produced by initializing a fresh zeroed region. -/
def freshAllocator (total page id : Nat) (name : String) : Allocator :=
  ⟨⟨kGlobalCookie, id, name, total, page, kSizeOfRegionHeader, 0, 0, false, false⟩,
   [], total, false, false, []⟩

/-- Effective page quantum: a `page_size` of 0 means "no page boundaries",
i.e. the whole region is a single page. -/
def pageSizeEff (a : Allocator) : Nat :=
  if a.meta.page_size = 0 then a.meta.total_size else a.meta.page_size

/-- Total block length reserved for a request of `size` payload bytes. -/
def blockSizeFor (size : Nat) : Nat :=
  alignUp (kSizeOfBlockHeader + size) kAllocAlignment

/-- Start offset for the next block: the bump cursor, advanced to the next
page boundary when the block would otherwise straddle one. -/
def candidateFor (a : Allocator) (bsize : Nat) : Nat :=
  if pageSizeEff a - a.meta.freeptr % pageSizeEff a < bsize then
    a.meta.freeptr + (pageSizeEff a - a.meta.freeptr % pageSizeEff a)
  else a.meta.freeptr

/-- Commit a winning allocation: advance the cursor, then publish the block
header with the committed cookie, and report the request to the histogram. -/
def allocCommit (a : Allocator) (c bsize ty reqsize : Nat) : Allocator :=
  recordSample
    { a with
      meta := { a.meta with freeptr := c + bsize },
      blocks := (c, ⟨bsize, ty, kBlockCookieAllocated, 0⟩) :: a.blocks }
    reqsize

/-- Modelled from the spec: `Allocate(size, type)`.  Invalid requests
(zero size, larger than a page), read-only mode and an already-full region
are rejected with a zero histogram sample; an allocation that cannot fit
below `total_size` raises the sticky full flag.  Returns the new state and
the reference (0 on failure). -/
def Allocate (a : Allocator) (size ty : Nat) : Allocator × Nat :=
  if a.readonly = true ∨ size = 0 ∨ pageSizeEff a < kSizeOfBlockHeader + size ∨
      a.meta.full = true then
    (recordSample a 0, 0)
  else if a.meta.total_size < a.meta.freeptr + blockSizeFor size then
    (recordSample (setFull a) 0, 0)
  else if a.meta.total_size < candidateFor a (blockSizeFor size) + blockSizeFor size then
    (recordSample (setFull a) 0, 0)
  else
    (allocCommit a (candidateFor a (blockSizeFor size)) (blockSizeFor size) ty size,
     candidateFor a (blockSizeFor size))

/-- Modelled from the spec: `GetAsObject<T>(ref, expected_type)` returns a
usable pointer (`true` here) iff the reference validates, the type tag
matches and the payload is large enough for an object of `objSize` bytes. -/
def GetAsObject (a : Allocator) (ref expected_type objSize : Nat) : Bool :=
  decide (refValid a ref ∧ (getBlockHeader a ref).type = expected_type ∧
    kSizeOfBlockHeader + objSize ≤ (getBlockHeader a ref).size)

/-- Modelled from the spec: usable payload bytes of a block (0 for a
reference that does not validate). -/
def GetAllocSize (a : Allocator) (ref : Nat) : Nat :=
  if refValid a ref then (getBlockHeader a ref).size - kSizeOfBlockHeader else 0

/-- Modelled from the spec: read the type tag (0 for an invalid reference). -/
def GetType (a : Allocator) (ref : Nat) : Nat :=
  if refValid a ref then (getBlockHeader a ref).type else 0

/-- Modelled from the spec: rewrite the type tag; a no-op on read-only
attaches and for invalid references. -/
def SetType (a : Allocator) (ref ty : Nat) : Allocator :=
  if a.readonly = true then a
  else if refValid a ref then
    { a with blocks := updateBlock (fun b => { b with type := ty }) ref a.blocks }
  else a

/-- Per-iterator and per-append hop budget: the maximum number of blocks
that could fit in the region. -/
def hopBudget (a : Allocator) : Nat := a.meta.total_size / kMinBlockSize

/-- Bounded defensive walk used by `MakeIterable` to find the true tail of
the publication list starting from the tail hint; `none` means the walk hit
an invalid reference or ran out of budget. -/
def findTail (a : Allocator) : Nat → Nat → Option Nat
  | _, 0 => none
  | start, fuel + 1 =>
    if refValid a start then
      if (getBlockHeader a start).next = 0 then some start
      else findTail a (getBlockHeader a start).next fuel
    else none

/-- Modelled from the spec: `MakeIterable(ref)` appends a committed block to
the publication list.  Invalid references are ignored, publication is
idempotent, and an exhausted tail walk raises the sticky corrupt flag.
Returns the new state and whether the block was appended by this call. -/
def MakeIterable (a : Allocator) (ref : Nat) : Allocator × Bool :=
  if a.readonly = true then (a, false)
  else if ¬ refValid a ref then (a, false)
  else if (getBlockHeader a ref).next ≠ 0 then (a, false)
  else if a.meta.queue = 0 then
    ({ a with meta := { a.meta with queue := ref, tailptr := ref } }, true)
  else
    match findTail a a.meta.tailptr (hopBudget a + 1) with
    | none => (setCorrupt a, false)
    | some t =>
      if t = ref then (a, false)
      else
        ({ a with
            meta := { a.meta with tailptr := ref },
            blocks := updateBlock (fun b => { b with next := ref }) t a.blocks },
         true)

/-- Modelled from the spec: an iterator is a cheap value, the last reference
returned plus a hop counter. -/
structure Iterator where
  last : Nat
  niter : Nat
deriving DecidableEq

/-- `CreateIterator(&iter)`: start at the list head. -/
def CreateIterator : Iterator := ⟨0, 0⟩

/-- `CreateIterator(&iter, starting_ref)`: start just after `starting_ref`. -/
def CreateIteratorAt (starting_ref : Nat) : Iterator := ⟨starting_ref, 0⟩

/-- Result of one `GetNextIterable` step. -/
structure NextResult where
  alloc : Allocator
  iter : Iterator
  ref : Nat
  rtype : Nat

/-- Modelled from the spec: `GetNextIterable(&iter, &type)`.  Returns 0 at
end of list; a link that fails validation, or a hop counter exceeding the
budget, raises the sticky corrupt flag and returns 0. -/
def GetNextIterable (a : Allocator) (it : Iterator) : NextResult :=
  if nextFrom a it.last = 0 then ⟨a, it, 0, 0⟩
  else if ¬ refValid a (nextFrom a it.last) then ⟨setCorrupt a, it, 0, 0⟩
  else if hopBudget a < it.niter + 1 then ⟨setCorrupt a, it, 0, 0⟩
  else
    ⟨a, ⟨nextFrom a it.last, it.niter + 1⟩, nextFrom a it.last,
     (getBlockHeader a (nextFrom a it.last)).type⟩

/-- Repeated `GetNextIterable` until it returns 0, counting the yielded
references; `fuel` only serves totality and never runs out when it starts
above the hop budget. -/
def countIterablesAux (a : Allocator) (it : Iterator) : Nat → Nat × Allocator
  | 0 => (0, a)
  | fuel + 1 =>
    let r := GetNextIterable a it
    if r.ref = 0 then (0, r.alloc)
    else
      let rest := countIterablesAux r.alloc r.iter fuel
      (rest.1 + 1, rest.2)

/-- A full iteration from a fresh iterator: the number of iterable blocks
seen and the allocator state afterwards. -/
def CountIterables (a : Allocator) : Nat × Allocator :=
  countIterablesAux a CreateIterator (hopBudget a + 1)

/-- An adversary overwriting the persisted `next` field of the block at
`ref` with the raw value `v`. -/
def weld (a : Allocator) (ref v : Nat) : Allocator :=
  { a with blocks := updateBlock (fun b => { b with next := v }) ref a.blocks }

/-- `validChain a pos n = true` iff, following `next` links from position
`pos`, the next `n` hops all lead to non-zero references that validate —
the shape an adversarially welded cycle takes. -/
def validChain (a : Allocator) : Nat → Nat → Bool
  | _, 0 => true
  | pos, n + 1 =>
    nextFrom a pos != 0 && decide (refValid a (nextFrom a pos)) &&
      validChain a (nextFrom a pos) n

/-- Modelled from the spec, corrected by `FilePersistentMemoryAllocatorTest.
AcceptableTest`: the file-backed variant attaches whenever the mapping is at
least large enough to hold the region header.  The test requires every
truncation of a valid region down to its used size to be acceptable, so the
persisted `total_size` cannot be (and is not) consulted. -/
def IsFileAcceptable (_mem : RegionImage) (length : Nat) : Bool :=
  decide (kSizeOfRegionHeader ≤ length)

/-- The acceptability predicate exactly as the specification words it: large
enough for the header AND a recorded `total_size` not exceeding the actual
length.  Kept separate so it can be compared against the test-conformant
`IsFileAcceptable`. -/
def specFileAcceptable (mem : RegionImage) (length : Nat) : Prop :=
  kSizeOfRegionHeader ≤ length ∧ mem.meta.total_size ≤ length

instance (mem : RegionImage) (len : Nat) : Decidable (specFileAcceptable mem len) := by
  unfold specFileAcceptable; infer_instance

/-- One atomic step a writer can take against the shared region. -/
inductive WriterOp where
  | alloc (size ty : Nat)
  | mkIter (ref : Nat)
  | setT (ref ty : Nat)
deriving DecidableEq

/-- Apply one writer step; the Bool records a successful publication. -/
def applyOp (a : Allocator) : WriterOp → Allocator × Bool
  | .alloc s t => ((Allocate a s t).1, false)
  | .mkIter r => MakeIterable a r
  | .setT r t => (SetType a r t, false)

/-- Run an interleaved sequence of writer steps. -/
def runOps (a : Allocator) : List WriterOp → Allocator
  | [] => a
  | op :: rest => runOps (applyOp a op).1 rest

/-- Number of `MakeIterable` calls in the trace that completed successfully. -/
def succCount (a : Allocator) : List WriterOp → Nat
  | [] => 0
  | op :: rest =>
    (if (applyOp a op).2 then 1 else 0) + succCount (applyOp a op).1 rest

/-- The iterable list has exactly the members of `L`, in order, starting
from position `pos`, every member validating, and ends with a zero link. -/
def chainOK (a : Allocator) : List Nat → Nat → Prop
  | [], pos => nextFrom a pos = 0
  | r :: rest, pos => nextFrom a pos = r ∧ refValid a r ∧ chainOK a rest r

/-- Last element of a list of references (0 when empty), mirroring the
persisted tail hint. -/
def tailOf : List Nat → Nat
  | [] => 0
  | [r] => r
  | _ :: r :: rest => tailOf (r :: rest)

/-- The references of all blocks ever committed in the region. -/
def keysOf (a : Allocator) : List Nat := a.blocks.map Prod.fst

/-- Basic well-formedness of a writable allocator state: no corruption, an
aligned bump cursor past the header and below `total_size`, block count
bounded by the space consumed, and every block below the cursor. -/
structure WFb (a : Allocator) : Prop where
  ro : a.readonly = false
  corr : a.meta.corrupt = false
  shadow : a.corrupt_shadow = false
  free_lb : kSizeOfRegionHeader ≤ a.meta.freeptr
  free_al : kAllocAlignment ∣ a.meta.freeptr
  free_ub : a.meta.freeptr ≤ a.meta.total_size
  page_al : kAllocAlignment ∣ pageSizeEff a
  count_bound : kSizeOfRegionHeader + kMinBlockSize * a.blocks.length ≤ a.meta.freeptr
  keys_lt : ∀ r ∈ keysOf a, r < a.meta.freeptr

/-- The iterable list of `a` is exactly `L`: loop-free, every member
validating, and the persisted tail hint exact. -/
def WFc (a : Allocator) (L : List Nat) : Prop :=
  chainOK a L 0 ∧ L.Nodup ∧ a.meta.tailptr = tailOf L

/-- Well-formedness: the invariants every sequence of well-formed
operations maintains. -/
def WF (a : Allocator) : Prop := WFb a ∧ ∃ L, WFc a L

/-! ## Association-list lemmas -/

theorem lookupRef_updateBlock (f : BlockHeader → BlockHeader) (ref k : Nat)
    (l : List (Nat × BlockHeader)) :
    lookupRef k (updateBlock f ref l) =
      if ref = k then (lookupRef k l).map f else lookupRef k l := by
  induction l with
  | nil => simp [lookupRef, updateBlock]
  | cons hd tl ih =>
    obtain ⟨r, b⟩ := hd
    by_cases hr : r = ref
    · subst hr
      by_cases hk : r = k
      · subst hk; simp [lookupRef, updateBlock]
      · simp [lookupRef, updateBlock, hk]
    · by_cases hk : r = k
      · subst hk
        have hrk : ¬ ref = r := fun h => hr h.symm
        simp [lookupRef, updateBlock, hr, hrk]
      · simp [lookupRef, updateBlock, hr, hk, ih]

theorem updateBlock_map_fst (f : BlockHeader → BlockHeader) (ref : Nat)
    (l : List (Nat × BlockHeader)) :
    (updateBlock f ref l).map Prod.fst = l.map Prod.fst := by
  induction l with
  | nil => simp [updateBlock]
  | cons hd tl ih =>
    obtain ⟨r, b⟩ := hd
    by_cases hr : r = ref <;> simp [updateBlock, hr, ih]

theorem updateBlock_length (f : BlockHeader → BlockHeader) (ref : Nat)
    (l : List (Nat × BlockHeader)) :
    (updateBlock f ref l).length = l.length := by
  have h := updateBlock_map_fst f ref l
  have := congrArg List.length h
  simpa using this

theorem lookupRef_mem_keys {k : Nat} {b : BlockHeader}
    {l : List (Nat × BlockHeader)} (h : lookupRef k l = some b) :
    k ∈ l.map Prod.fst := by
  induction l with
  | nil => simp [lookupRef] at h
  | cons hd tl ih =>
    obtain ⟨r, b'⟩ := hd
    by_cases hr : r = k
    · subst hr; simp
    · simp [lookupRef, hr] at h
      simp [ih h]

/-! ## Alignment arithmetic -/

theorem alignUp_bounds (x : Nat) :
    x ≤ alignUp x kAllocAlignment ∧ alignUp x kAllocAlignment < x + kAllocAlignment ∧
    kAllocAlignment ∣ alignUp x kAllocAlignment := by
  unfold alignUp kAllocAlignment
  refine ⟨?_, ?_, ?_⟩ <;> omega

theorem blockSizeFor_bounds (size : Nat) (h : size ≠ 0) :
    kMinBlockSize ≤ blockSizeFor size ∧
    kSizeOfBlockHeader + size ≤ blockSizeFor size ∧
    blockSizeFor size < kSizeOfBlockHeader + size + kAllocAlignment ∧
    kAllocAlignment ∣ blockSizeFor size := by
  unfold blockSizeFor alignUp kAllocAlignment kSizeOfBlockHeader kMinBlockSize
  refine ⟨?_, ?_, ?_, ?_⟩ <;> omega

/-! ## Congruence of reads under state updates -/

theorem nextFrom_congr {a a' : Allocator} (hq : a'.meta.queue = a.meta.queue)
    (hb : a'.blocks = a.blocks) (p : Nat) : nextFrom a' p = nextFrom a p := by
  simp [nextFrom, getBlockHeader, hq, hb]

theorem refValid_congr {a a' : Allocator} (hf : a'.meta.freeptr = a.meta.freeptr)
    (hb : a'.blocks = a.blocks) (r : Nat) : refValid a' r ↔ refValid a r := by
  simp [refValid, getBlockHeader, hf, hb]

theorem refValid_ne_zero {a : Allocator} {r : Nat} (h : refValid a r) : r ≠ 0 := h.1

theorem refValid_lb {a : Allocator} {r : Nat} (h : refValid a r) :
    kSizeOfRegionHeader ≤ r := h.2.2.1

theorem refValid_lt_freeptr {a : Allocator} {r : Nat} (h : refValid a r) :
    r < a.meta.freeptr := h.2.2.2.1

theorem refValid_lookup {a : Allocator} {r : Nat} (h : refValid a r) :
    ∃ b, lookupRef r a.blocks = some b := by
  rcases hl : lookupRef r a.blocks with _ | b
  · exfalso
    have := h.2.2.2.2
    rw [getBlockHeader, hl] at this
    simp [kBlockCookieAllocated] at this
  · exact ⟨b, rfl⟩

theorem refValid_mem_keys {a : Allocator} {r : Nat} (h : refValid a r) :
    r ∈ keysOf a := by
  obtain ⟨b, hb⟩ := refValid_lookup h
  exact lookupRef_mem_keys hb

/-! ## Chain lemmas -/

theorem chainOK_refValid {a : Allocator} :
    ∀ {L : List Nat} {pos : Nat}, chainOK a L pos → ∀ r ∈ L, refValid a r := by
  intro L
  induction L with
  | nil => intro pos _ r hr; simp at hr
  | cons x rest ih =>
    intro pos h r hr
    obtain ⟨h1, h2, h3⟩ := h
    rcases List.mem_cons.mp hr with rfl | hr'
    · exact h2
    · exact ih h3 r hr'

theorem chainOK_mono {a a' : Allocator} :
    ∀ {L : List Nat} {pos : Nat}, chainOK a L pos →
      nextFrom a' pos = nextFrom a pos →
      (∀ r ∈ L, nextFrom a' r = nextFrom a r) →
      (∀ r ∈ L, refValid a r → refValid a' r) →
      chainOK a' L pos := by
  intro L
  induction L with
  | nil => intro pos h hpos _ _; exact hpos.trans h
  | cons x rest ih =>
    intro pos h hpos hstep hval
    obtain ⟨h1, h2, h3⟩ := h
    refine ⟨hpos.trans h1, hval x (by simp) h2, ?_⟩
    exact ih h3 (hstep x (by simp)) (fun r hr => hstep r (by simp [hr]))
      (fun r hr => hval r (by simp [hr]))

theorem tailOf_mem : ∀ {L : List Nat}, L ≠ [] → tailOf L ∈ L := by
  intro L
  induction L with
  | nil => intro h; exact absurd rfl h
  | cons x rest ih =>
    intro _
    cases rest with
    | nil => simp [tailOf]
    | cons y t => simpa [tailOf] using Or.inr (ih (by simp))

theorem chainOK_tail_next {a : Allocator} :
    ∀ {L : List Nat} {pos : Nat}, chainOK a L pos → L ≠ [] →
      nextFrom a (tailOf L) = 0 := by
  intro L
  induction L with
  | nil => intro pos _ h; exact absurd rfl h
  | cons x rest ih =>
    intro pos h _
    obtain ⟨h1, h2, h3⟩ := h
    cases rest with
    | nil => simpa [tailOf] using h3
    | cons y t => simpa [tailOf] using ih h3 (by simp)

theorem chainOK_next_zero_tail {a : Allocator} :
    ∀ {L : List Nat} {pos r : Nat}, chainOK a L pos → r ∈ L →
      nextFrom a r = 0 → r = tailOf L := by
  intro L
  induction L with
  | nil => intro pos r _ hr; simp at hr
  | cons x rest ih =>
    intro pos r h hr hz
    obtain ⟨h1, h2, h3⟩ := h
    rcases List.mem_cons.mp hr with rfl | hr'
    · cases rest with
      | nil => simp [tailOf]
      | cons y t =>
        exfalso
        obtain ⟨g1, g2, g3⟩ := h3
        have : y ≠ 0 := refValid_ne_zero g2
        rw [hz] at g1
        exact this g1.symm
    · cases rest with
      | nil => simp at hr'
      | cons y t => simpa [tailOf] using ih h3 hr' hz

theorem chain_subset_keys {a : Allocator} {L : List Nat} {pos : Nat}
    (h : chainOK a L pos) : ∀ r ∈ L, r ∈ keysOf a :=
  fun r hr => refValid_mem_keys (chainOK_refValid h r hr)

theorem nodup_subset_length {L K : List Nat} (hnd : L.Nodup)
    (hsub : ∀ r ∈ L, r ∈ K) : L.length ≤ K.length := by
  classical
  calc L.length = L.toFinset.card := (List.toFinset_card_of_nodup hnd).symm
    _ ≤ K.toFinset.card := by
        refine Finset.card_le_card ?_
        intro x hx
        rw [List.mem_toFinset] at hx ⊢
        exact hsub x hx
    _ ≤ K.length := K.toFinset_card_le

/-- Under well-formedness, the iterable list is shorter than the hop budget. -/
theorem WF_chain_length {a : Allocator} (h : WFb a) {L : List Nat}
    (hc : chainOK a L 0) (hnd : L.Nodup) : L.length ≤ hopBudget a := by
  have h1 : L.length ≤ (keysOf a).length :=
    nodup_subset_length hnd (chain_subset_keys hc)
  have h2 : (keysOf a).length = a.blocks.length := by simp [keysOf]
  have h3 := h.count_bound
  have h4 := h.free_ub
  rw [h2] at h1
  unfold hopBudget kMinBlockSize
  unfold kSizeOfRegionHeader kMinBlockSize at h3
  omega

/-! ## Iteration computes the chain length and does not disturb the state -/

theorem countIterablesAux_chain {a : Allocator} :
    ∀ (L : List Nat) (it : Iterator) (fuel : Nat),
      chainOK a L it.last →
      it.niter + L.length ≤ hopBudget a →
      L.length < fuel →
      countIterablesAux a it fuel = (L.length, a) := by
  intro L
  induction L with
  | nil =>
    intro it fuel h _ hfuel
    cases fuel with
    | zero => omega
    | succ f =>
      have h' : nextFrom a it.last = 0 := h
      have hg : GetNextIterable a it = ⟨a, it, 0, 0⟩ := by
        unfold GetNextIterable
        rw [if_pos h']
      simp [countIterablesAux, hg]
  | cons x rest ih =>
    intro it fuel h hbud hfuel
    obtain ⟨h1, h2, h3⟩ := h
    cases fuel with
    | zero => omega
    | succ f =>
      have hx0 : x ≠ 0 := refValid_ne_zero h2
      have hg : GetNextIterable a it = ⟨a, ⟨x, it.niter + 1⟩, x,
          (getBlockHeader a x).type⟩ := by
        unfold GetNextIterable
        rw [h1, if_neg hx0, if_neg (not_not_intro h2), if_neg (by simp at hbud ⊢; omega)]
      have hrec := ih ⟨x, it.niter + 1⟩ f h3 (by simp at hbud ⊢; omega) (by simp at hfuel ⊢; omega)
      simp [countIterablesAux, hg, hx0, hrec]

theorem CountIterables_of_chain {a : Allocator} {L : List Nat}
    (hc : chainOK a L 0) (hlen : L.length ≤ hopBudget a) :
    CountIterables a = (L.length, a) := by
  unfold CountIterables CreateIterator
  exact countIterablesAux_chain L ⟨0, 0⟩ (hopBudget a + 1) hc (by simpa) (by omega)

/-- Under well-formedness a full iteration returns the length of the
iterable list and leaves the allocator untouched. -/
theorem CountIterables_WF {a : Allocator} (h : WFb a) {L : List Nat}
    (hc : WFc a L) : CountIterables a = (L.length, a) :=
  CountIterables_of_chain hc.1 (WF_chain_length h hc.1 hc.2.1)

/-! ## Preservation of the invariants by every atomic operation -/

/-- Changes that keep the read-relevant state (flags, cursor, sizes, block
keys) intact preserve basic well-formedness. -/
theorem WFb_pres (a a' : Allocator) (h : WFb a)
    (hro : a'.readonly = a.readonly) (hsh : a'.corrupt_shadow = a.corrupt_shadow)
    (hco : a'.meta.corrupt = a.meta.corrupt)
    (hfr : a'.meta.freeptr = a.meta.freeptr)
    (hts : a'.meta.total_size = a.meta.total_size)
    (hps : a'.meta.page_size = a.meta.page_size)
    (hk : keysOf a' = keysOf a) : WFb a' := by
  have hlen : a'.blocks.length = a.blocks.length := by
    have := congrArg List.length hk
    simpa [keysOf] using this
  have hpe : pageSizeEff a' = pageSizeEff a := by
    simp [pageSizeEff, hts, hps]
  exact ⟨hro.trans h.ro, hco.trans h.corr, hsh.trans h.shadow,
    hfr ▸ h.free_lb, hfr ▸ h.free_al, by rw [hfr, hts]; exact h.free_ub,
    hpe ▸ h.page_al, by rw [hlen, hfr]; exact h.count_bound,
    by rw [hk, hfr]; exact h.keys_lt⟩

/-- Changes that keep queue, cursor, blocks and tail hint intact preserve
the chain witness. -/
theorem WFc_pres (a a' : Allocator)
    (hq : a'.meta.queue = a.meta.queue) (hfr : a'.meta.freeptr = a.meta.freeptr)
    (hbl : a'.blocks = a.blocks) (ht : a'.meta.tailptr = a.meta.tailptr)
    {L : List Nat} (hc : WFc a L) : WFc a' L := by
  obtain ⟨h1, h2, h3⟩ := hc
  refine ⟨chainOK_mono h1 (nextFrom_congr hq hbl _)
    (fun r _ => nextFrom_congr hq hbl r)
    (fun r _ hv => (refValid_congr hfr hbl r).mpr hv), h2, by rw [ht, h3]⟩

theorem getBlockHeader_update_ne {a a' : Allocator} {f : BlockHeader → BlockHeader}
    {ref : Nat} (hbl : a'.blocks = updateBlock f ref a.blocks) (k : Nat)
    (hk : k ≠ ref) : getBlockHeader a' k = getBlockHeader a k := by
  unfold getBlockHeader
  rw [hbl, lookupRef_updateBlock, if_neg (fun h => hk h.symm)]

theorem getBlockHeader_update_self {a a' : Allocator} {f : BlockHeader → BlockHeader}
    {ref : Nat} {b : BlockHeader} (hbl : a'.blocks = updateBlock f ref a.blocks)
    (hl : lookupRef ref a.blocks = some b) : getBlockHeader a' ref = f b := by
  unfold getBlockHeader
  rw [hbl, lookupRef_updateBlock, if_pos rfl, hl]
  rfl

theorem nextFrom_update_ne {a a' : Allocator} {f : BlockHeader → BlockHeader}
    {ref : Nat} (hbl : a'.blocks = updateBlock f ref a.blocks)
    (hq : a'.meta.queue = a.meta.queue) (p : Nat) (hp : p ≠ ref) :
    nextFrom a' p = nextFrom a p := by
  unfold nextFrom
  by_cases hp0 : p = 0
  · simp [hp0, hq]
  · rw [if_neg hp0, if_neg hp0, getBlockHeader_update_ne hbl p hp]

theorem nextFrom_update_pres {a a' : Allocator} {f : BlockHeader → BlockHeader}
    {ref : Nat} (hbl : a'.blocks = updateBlock f ref a.blocks)
    (hq : a'.meta.queue = a.meta.queue) (hf : ∀ b, (f b).next = b.next) (p : Nat) :
    nextFrom a' p = nextFrom a p := by
  by_cases hp : p = ref
  · subst hp
    unfold nextFrom
    by_cases hp0 : p = 0
    · simp [hp0, hq]
    · rw [if_neg hp0, if_neg hp0]
      unfold getBlockHeader
      rw [hbl, lookupRef_updateBlock, if_pos rfl]
      cases lookupRef p a.blocks <;> simp [hf]
  · exact nextFrom_update_ne hbl hq p hp

theorem refValid_update_pres {a a' : Allocator} {f : BlockHeader → BlockHeader}
    {ref : Nat} (hbl : a'.blocks = updateBlock f ref a.blocks)
    (hfr : a'.meta.freeptr = a.meta.freeptr) (hf : ∀ b, (f b).cookie = b.cookie)
    (r : Nat) : refValid a' r ↔ refValid a r := by
  by_cases hr : r = ref
  · subst hr
    unfold refValid
    rw [hfr]
    have hgb : (getBlockHeader a' r).cookie = (getBlockHeader a r).cookie := by
      unfold getBlockHeader
      rw [hbl, lookupRef_updateBlock, if_pos rfl]
      cases lookupRef r a.blocks <;> simp [hf]
    rw [hgb]
  · unfold refValid
    rw [hfr, getBlockHeader_update_ne hbl r hr]

theorem tailOf_snoc : ∀ (L : List Nat) (r : Nat), tailOf (L ++ [r]) = r := by
  intro L r
  induction L with
  | nil => simp [tailOf]
  | cons x rest ih =>
    cases rest with
    | nil => simp [tailOf]
    | cons y t => simpa [tailOf] using ih

/-- Appending a fresh block after the current tail extends the chain. -/
theorem chainOK_snoc {a a' : Allocator} {r : Nat} :
    ∀ {L : List Nat} {pos : Nat}, chainOK a L pos → L ≠ [] → L.Nodup →
      (∀ p, p ≠ tailOf L → nextFrom a' p = nextFrom a p) →
      (∀ x ∈ L, refValid a x → refValid a' x) →
      nextFrom a' (tailOf L) = r →
      refValid a' r →
      nextFrom a' r = 0 →
      pos ∉ L →
      chainOK a' (L ++ [r]) pos := by
  intro L
  induction L with
  | nil => intro pos _ h; exact absurd rfl h
  | cons x rest ih =>
    intro pos h _ hnd hagree hval htail hrv hrn hpos
    obtain ⟨h1, h2, h3⟩ := h
    cases rest with
    | nil =>
      have hpx : pos ≠ x := by simpa using hpos
      have htx : tailOf [x] = x := rfl
      refine ⟨?_, hval x (by simp) h2, ?_, hrv, hrn⟩
      · rw [hagree pos (htx ▸ hpx), h1]
      · exact htx ▸ htail
    | cons y t =>
      have htxy : tailOf (x :: y :: t) = tailOf (y :: t) := rfl
      have htmem : tailOf (y :: t) ∈ y :: t := tailOf_mem (by simp)
      have hpt : pos ≠ tailOf (x :: y :: t) := by
        rw [htxy]
        intro hpe
        exact hpos (by rw [hpe]; exact List.mem_cons_of_mem x htmem)
      refine ⟨?_, hval x (by simp) h2, ?_⟩
      · rw [hagree pos hpt, h1]
      · have hx_nin : x ∉ y :: t := (List.nodup_cons.mp hnd).1
        exact ih h3 (by simp) (List.nodup_cons.mp hnd).2
          (fun p hp => hagree p (htxy ▸ hp))
          (fun z hz hvz => hval z (List.mem_cons_of_mem x hz) hvz)
          (htxy ▸ htail) hrv hrn hx_nin

theorem candidateFor_ge (a : Allocator) (bs : Nat) :
    a.meta.freeptr ≤ candidateFor a bs := by
  unfold candidateFor
  split <;> omega

theorem candidateFor_align {a : Allocator} (bs : Nat)
    (hfa : kAllocAlignment ∣ a.meta.freeptr) (hpa : kAllocAlignment ∣ pageSizeEff a) :
    kAllocAlignment ∣ candidateFor a bs := by
  unfold candidateFor
  split
  · refine Nat.dvd_add hfa (Nat.dvd_sub' hpa ?_)
    exact (Nat.dvd_mod_iff hpa).mpr hfa
  · exact hfa

theorem SetType_step {a : Allocator} {L : List Nat} (hb : WFb a) (hc : WFc a L)
    (ref ty : Nat) : WFb (SetType a ref ty) ∧ WFc (SetType a ref ty) L := by
  unfold SetType
  rw [if_neg (by simp [hb.ro])]
  by_cases hv : refValid a ref
  · rw [if_pos hv]
    have hbl : (({ a with blocks := updateBlock (fun b => { b with type := ty }) ref a.blocks } : Allocator)).blocks
        = updateBlock (fun b => { b with type := ty }) ref a.blocks := rfl
    constructor
    · exact WFb_pres a _ hb rfl rfl rfl rfl rfl rfl
        (by simp [keysOf, updateBlock_map_fst])
    · obtain ⟨h1, h2, h3⟩ := hc
      refine ⟨chainOK_mono h1 ?_ ?_ ?_, h2, h3⟩
      · exact nextFrom_update_pres hbl rfl (fun b => rfl) 0
      · exact fun r _ => nextFrom_update_pres hbl rfl (fun b => rfl) r
      · exact fun r _ hr => (refValid_update_pres hbl rfl (fun b => rfl) r).mpr hr
  · rw [if_neg hv]
    exact ⟨hb, hc⟩

theorem Allocate_step {a : Allocator} {L : List Nat} (hb : WFb a) (hc : WFc a L)
    (size ty : Nat) :
    WFb (Allocate a size ty).1 ∧ WFc (Allocate a size ty).1 L := by
  unfold Allocate
  by_cases h1 : a.readonly = true ∨ size = 0 ∨
      pageSizeEff a < kSizeOfBlockHeader + size ∨ a.meta.full = true
  · rw [if_pos h1]
    exact ⟨WFb_pres a _ hb rfl rfl rfl rfl rfl rfl rfl,
      WFc_pres a (recordSample a 0) rfl rfl rfl rfl hc⟩
  · rw [if_neg h1]
    have hsz : size ≠ 0 := by tauto
    by_cases h2 : a.meta.total_size < a.meta.freeptr + blockSizeFor size
    · rw [if_pos h2]
      exact ⟨WFb_pres a _ hb rfl rfl rfl rfl rfl rfl rfl,
        WFc_pres a (recordSample (setFull a) 0) rfl rfl rfl rfl hc⟩
    · rw [if_neg h2]
      by_cases h3 : a.meta.total_size <
          candidateFor a (blockSizeFor size) + blockSizeFor size
      · rw [if_pos h3]
        exact ⟨WFb_pres a _ hb rfl rfl rfl rfl rfl rfl rfl,
          WFc_pres a (recordSample (setFull a) 0) rfl rfl rfl rfl hc⟩
      · rw [if_neg h3]
        have hbsb := blockSizeFor_bounds size hsz
        have hge := candidateFor_ge a (blockSizeFor size)
        have hal := candidateFor_align (a := a) (blockSizeFor size) hb.free_al hb.page_al
        have hminpos : 0 < kMinBlockSize := by unfold kMinBlockSize; omega
        constructor
        · refine ⟨hb.ro, hb.corr, hb.shadow, ?_, ?_, ?_, ?_, ?_, ?_⟩
          · have := hb.free_lb; simp [allocCommit, recordSample]; omega
          · show kAllocAlignment ∣ candidateFor a (blockSizeFor size) + blockSizeFor size
            exact Nat.dvd_add hal hbsb.2.2.2
          · show candidateFor a (blockSizeFor size) + blockSizeFor size ≤ a.meta.total_size
            omega
          · show kAllocAlignment ∣ pageSizeEff
              (allocCommit a (candidateFor a (blockSizeFor size)) (blockSizeFor size) ty size)
            have hpe : pageSizeEff
                (allocCommit a (candidateFor a (blockSizeFor size)) (blockSizeFor size) ty size)
                = pageSizeEff a := rfl
            rw [hpe]; exact hb.page_al
          · show kSizeOfRegionHeader + kMinBlockSize * (a.blocks.length + 1) ≤
              candidateFor a (blockSizeFor size) + blockSizeFor size
            have hcb := hb.count_bound
            have hbs1 := hbsb.1
            have := hb.free_lb
            nlinarith [hcb, hbs1, hge]
          · intro r hr
            show r < candidateFor a (blockSizeFor size) + blockSizeFor size
            rcases List.mem_cons.mp hr with rfl | hr'
            · have := hbsb.1; omega
            · have := hb.keys_lt r hr'
              omega
        · obtain ⟨hcc, hnd, hct⟩ := hc
          have hbl : (allocCommit a (candidateFor a (blockSizeFor size))
              (blockSizeFor size) ty size).blocks =
              (candidateFor a (blockSizeFor size),
                ⟨blockSizeFor size, ty, kBlockCookieAllocated, 0⟩) :: a.blocks := rfl
          refine ⟨chainOK_mono hcc rfl ?_ ?_, hnd, hct⟩
          · intro r hr
            have hrv := chainOK_refValid hcc r hr
            have hrne : candidateFor a (blockSizeFor size) ≠ r := by
              have := refValid_lt_freeptr hrv
              omega
            have hr0 : r ≠ 0 := refValid_ne_zero hrv
            unfold nextFrom
            rw [if_neg hr0, if_neg hr0]
            unfold getBlockHeader
            rw [hbl]
            simp [lookupRef, hrne]
          · intro r hr hrv
            have hlt := refValid_lt_freeptr hrv
            have hrne : candidateFor a (blockSizeFor size) ≠ r := by omega
            obtain ⟨g1, g2, g3, g4, g5⟩ := hrv
            refine ⟨g1, g2, g3, ?_, ?_⟩
            · show r < candidateFor a (blockSizeFor size) + blockSizeFor size
              omega
            · show (getBlockHeader (allocCommit a (candidateFor a (blockSizeFor size))
                  (blockSizeFor size) ty size) r).cookie = kBlockCookieAllocated
              unfold getBlockHeader
              rw [hbl]
              simpa [lookupRef, hrne] using g5

theorem MakeIterable_step {a : Allocator} {L : List Nat} (hb : WFb a) (hc : WFc a L)
    (ref : Nat) :
    WFb (MakeIterable a ref).1 ∧
    WFc (MakeIterable a ref).1
      (if (MakeIterable a ref).2 then L ++ [ref] else L) := by
  unfold MakeIterable
  rw [if_neg (by simp [hb.ro])]
  by_cases hv : refValid a ref
  swap
  · rw [if_pos hv]
    exact ⟨hb, hc⟩
  rw [if_neg (not_not_intro hv)]
  by_cases hn : (getBlockHeader a ref).next = 0
  swap
  · rw [if_pos hn]
    exact ⟨hb, hc⟩
  rw [if_neg (not_not_intro hn)]
  by_cases hq : a.meta.queue = 0
  · rw [if_pos hq]
    have hL : L = [] := by
      cases L with
      | nil => rfl
      | cons x rest =>
        exfalso
        obtain ⟨g1, g2, _⟩ := hc.1
        unfold nextFrom at g1
        simp only [if_pos rfl] at g1
        rw [hq] at g1
        exact refValid_ne_zero g2 g1.symm
    subst hL
    constructor
    · exact WFb_pres a _ hb rfl rfl rfl rfl rfl rfl rfl
    · show WFc _ [ref]
      refine ⟨⟨?_, ?_, ?_⟩, by simp, rfl⟩
      · show nextFrom _ 0 = ref
        unfold nextFrom
        simp
      · exact (refValid_congr (a := a) rfl rfl ref).mpr hv
      · show nextFrom _ ref = 0
        unfold nextFrom
        rw [if_neg (refValid_ne_zero hv)]
        exact hn
  · rw [if_neg hq]
    have hLne : L ≠ [] := by
      intro h0
      subst h0
      have h1 := hc.1
      unfold chainOK nextFrom at h1
      simp only [if_pos rfl] at h1
      exact hq h1
    have htv : refValid a (tailOf L) := chainOK_refValid hc.1 _ (tailOf_mem hLne)
    have htn0 : (getBlockHeader a (tailOf L)).next = 0 := by
      have h := chainOK_tail_next hc.1 hLne
      unfold nextFrom at h
      rw [if_neg (refValid_ne_zero htv)] at h
      exact h
    have hft : findTail a a.meta.tailptr (hopBudget a + 1) = some (tailOf L) := by
      rw [hc.2.2]
      unfold findTail
      rw [if_pos htv, if_pos htn0]
    simp only [hft]
    by_cases hte : tailOf L = ref
    · rw [if_pos hte]
      exact ⟨hb, hc⟩
    · rw [if_neg hte]
      have hbl : (({ a with
          meta := { a.meta with tailptr := ref },
          blocks := updateBlock (fun b => { b with next := ref }) (tailOf L)
            a.blocks } : Allocator)).blocks =
          updateBlock (fun b => { b with next := ref }) (tailOf L) a.blocks := rfl
      have hrefnin : ref ∉ L := by
        intro hin
        have hnf : nextFrom a ref = 0 := by
          unfold nextFrom
          rw [if_neg (refValid_ne_zero hv)]
          exact hn
        exact hte ((chainOK_next_zero_tail hc.1 hin hnf).symm)
      constructor
      · exact WFb_pres a _ hb rfl rfl rfl rfl rfl rfl
          (by simp [keysOf, updateBlock_map_fst])
      · show WFc _ (L ++ [ref])
        refine ⟨?_, ?_, ?_⟩
        · refine chainOK_snoc hc.1 hLne hc.2.1
            (fun p hp => nextFrom_update_ne hbl rfl p hp)
            (fun x _ hvx =>
              (refValid_update_pres hbl rfl (fun b => rfl) x).mpr hvx)
            ?_ ?_ ?_ ?_
          · obtain ⟨b, hlb⟩ := refValid_lookup htv
            unfold nextFrom
            rw [if_neg (refValid_ne_zero htv), getBlockHeader_update_self hbl hlb]
          · exact (refValid_update_pres hbl rfl (fun b => rfl) ref).mpr hv
          · rw [nextFrom_update_ne hbl rfl ref (fun h => hte h.symm)]
            unfold nextFrom
            rw [if_neg (refValid_ne_zero hv)]
            exact hn
          · intro h0
            exact refValid_ne_zero (chainOK_refValid hc.1 0 h0) rfl
        · simp [List.nodup_append, hc.2.1, hrefnin]
        · show ref = tailOf (L ++ [ref])
          rw [tailOf_snoc]

theorem applyOp_step {a : Allocator} {L : List Nat} (hb : WFb a) (hc : WFc a L)
    (op : WriterOp) :
    WFb (applyOp a op).1 ∧
    ∃ M, WFc (applyOp a op).1 M ∧
      M.length = L.length + (if (applyOp a op).2 then 1 else 0) := by
  cases op with
  | alloc s t =>
    have h := Allocate_step hb hc s t
    exact ⟨h.1, L, h.2, by simp [applyOp]⟩
  | setT r t =>
    have h := SetType_step hb hc r t
    exact ⟨h.1, L, h.2, by simp [applyOp]⟩
  | mkIter r =>
    have h := MakeIterable_step hb hc r
    refine ⟨h.1, ?_⟩
    by_cases hs : (MakeIterable a r).2 = true
    · refine ⟨L ++ [r], ?_, ?_⟩
      · have := h.2
        rw [if_pos hs] at this
        exact this
      · simp [applyOp, hs]
    · refine ⟨L, ?_, ?_⟩
      · have := h.2
        rw [if_neg hs] at this
        exact this
      · simp [applyOp, hs]

theorem runOps_step {a : Allocator} {L : List Nat} (hb : WFb a) (hc : WFc a L)
    (ops : List WriterOp) :
    WFb (runOps a ops) ∧
    ∃ M, WFc (runOps a ops) M ∧ M.length = L.length + succCount a ops := by
  induction ops generalizing a L with
  | nil => exact ⟨hb, L, hc, by simp [succCount]⟩
  | cons op rest ih =>
    obtain ⟨hb1, L1, hc1, hlen1⟩ := applyOp_step hb hc op
    obtain ⟨hb2, L2, hc2, hlen2⟩ := ih hb1 hc1
    refine ⟨hb2, L2, hc2, ?_⟩
    have hsc : succCount a (op :: rest) =
        (if (applyOp a op).2 then 1 else 0) + succCount (applyOp a op).1 rest := rfl
    rw [hsc, hlen2, hlen1]
    omega

theorem runOps_append (a : Allocator) (p q : List WriterOp) :
    runOps a (p ++ q) = runOps (runOps a p) q := by
  induction p generalizing a with
  | nil => rfl
  | cons op rest ih => simpa [runOps] using ih (applyOp a op).1

theorem succCount_append (a : Allocator) (p q : List WriterOp) :
    succCount a (p ++ q) = succCount a p + succCount (runOps a p) q := by
  induction p generalizing a with
  | nil => simp [succCount, runOps]
  | cons op rest ih =>
    have h1 : succCount a ((op :: rest) ++ q) =
        (if (applyOp a op).2 then 1 else 0) + succCount (applyOp a op).1 (rest ++ q) := rfl
    have h2 : succCount a (op :: rest) =
        (if (applyOp a op).2 then 1 else 0) + succCount (applyOp a op).1 rest := rfl
    have h3 : runOps a (op :: rest) = runOps (applyOp a op).1 rest := rfl
    rw [h1, h2, h3, ih (applyOp a op).1]
    omega

theorem IsCorrupt_setCorrupt (a : Allocator) : IsCorrupt (setCorrupt a) = true := by
  unfold IsCorrupt setCorrupt
  split <;> simp

/-- Iteration yields at most `hopBudget` further references, whatever the
state of the region: each successful hop needs headroom in the budget. -/
theorem countIterablesAux_le (a : Allocator) :
    ∀ (fuel : Nat) (it : Iterator),
      (countIterablesAux a it fuel).1 ≤ hopBudget a - it.niter := by
  intro fuel
  induction fuel with
  | zero => intro it; simp [countIterablesAux]
  | succ f ih =>
    intro it
    show (if (GetNextIterable a it).ref = 0 then
        ((0 : Nat), (GetNextIterable a it).alloc)
      else
        ((countIterablesAux (GetNextIterable a it).alloc
            (GetNextIterable a it).iter f).1 + 1,
         (countIterablesAux (GetNextIterable a it).alloc
            (GetNextIterable a it).iter f).2)).1 ≤ hopBudget a - it.niter
    by_cases h0 : (GetNextIterable a it).ref = 0
    · rw [if_pos h0]
      simp
    · rw [if_neg h0]
      unfold GetNextIterable at h0 ⊢
      by_cases h1 : nextFrom a it.last = 0
      · rw [if_pos h1] at h0; simp at h0
      · rw [if_neg h1] at h0 ⊢
        by_cases h2 : ¬ refValid a (nextFrom a it.last)
        · rw [if_pos h2] at h0; simp at h0
        · rw [if_neg h2] at h0 ⊢
          by_cases h3 : hopBudget a < it.niter + 1
          · rw [if_pos h3] at h0; simp at h0
          · rw [if_neg h3] at h0 ⊢
            have := ih ⟨nextFrom a it.last, it.niter + 1⟩
            simp only [] at this ⊢
            omega

/-- When every hop from the iterator validates for longer than the budget
allows (a welded cycle), iteration stops by exhausting the budget: it
yields exactly the remaining budget and raises the corrupt flag. -/
theorem cycle_aux {a : Allocator} :
    ∀ (k : Nat) (it : Iterator) (fuel : Nat),
      validChain a it.last (k + 1) = true →
      it.niter + k = hopBudget a →
      k + 1 ≤ fuel →
      countIterablesAux a it fuel = (k, setCorrupt a) := by
  intro k
  induction k with
  | zero =>
    intro it fuel hvc hbud hfuel
    simp only [validChain, Bool.and_eq_true, bne_iff_ne, decide_eq_true_eq] at hvc
    obtain ⟨⟨hnz, hrv⟩, _⟩ := hvc
    cases fuel with
    | zero => omega
    | succ f =>
      have hg : GetNextIterable a it = ⟨setCorrupt a, it, 0, 0⟩ := by
        unfold GetNextIterable
        rw [if_neg hnz, if_neg (not_not_intro hrv), if_pos (by omega)]
      simp [countIterablesAux, hg]
  | succ k ih =>
    intro it fuel hvc hbud hfuel
    rw [validChain] at hvc
    simp only [Bool.and_eq_true, bne_iff_ne, decide_eq_true_eq] at hvc
    obtain ⟨⟨hnz, hrv⟩, hrest⟩ := hvc
    cases fuel with
    | zero => omega
    | succ f =>
      have hg : GetNextIterable a it = ⟨a, ⟨nextFrom a it.last, it.niter + 1⟩,
          nextFrom a it.last, (getBlockHeader a (nextFrom a it.last)).type⟩ := by
        unfold GetNextIterable
        rw [if_neg hnz, if_neg (not_not_intro hrv), if_neg (by omega)]
      have hrec := ih ⟨nextFrom a it.last, it.niter + 1⟩ f hrest (by simp; omega)
        (by omega)
      simp [countIterablesAux, hg, hnz, hrec]

theorem findTail_some {a : Allocator} :
    ∀ (fuel start t : Nat), findTail a start fuel = some t →
      refValid a t ∧ (getBlockHeader a t).next = 0 := by
  intro fuel
  induction fuel with
  | zero => intro start t h; simp [findTail] at h
  | succ f ih =>
    intro start t h
    unfold findTail at h
    by_cases hv : refValid a start
    · rw [if_pos hv] at h
      by_cases hn : (getBlockHeader a start).next = 0
      · rw [if_pos hn] at h
        obtain rfl : start = t := Option.some.inj h
        exact ⟨hv, hn⟩
      · rw [if_neg hn] at h
        exact ih _ t h
    · rw [if_neg hv] at h
      exact absurd h (by simp)

/-! ## Concrete scenarios

A small 256-byte region (one 256-byte page) keeps kernel evaluation cheap;
block references land at 64, 88 and 112.  A 1-MiB region with 64-KiB pages
mirrors the unit tests' configuration. -/

def demoFresh : Allocator := freshAllocator 256 256 1 "T"

def demoOnce : Allocator × Nat := Allocate demoFresh 5 1

/-- Three committed blocks (refs 64, 88, 112), all three published. -/
def demoIterated : Allocator :=
  let s1 := Allocate demoFresh 5 1
  let s2 := Allocate s1.1 5 2
  let s3 := Allocate s2.1 5 3
  let t1 := MakeIterable s3.1 s1.2
  let t2 := MakeIterable t1.1 s2.2
  (MakeIterable t2.1 s3.2).1

/-- Adversary overwrites the last block's `next` with the middle block:
the list becomes the cycle 64 → 88 → 112 → 88 → … -/
def demoWeldedBack : Allocator := weld demoIterated 112 88

/-- Adversary points the last block's `next` at the block itself. -/
def demoWeldedSelf : Allocator := weld demoIterated 112 112

/-- Adversary points the last block's `next` back at the list head. -/
def demoWeldedHead : Allocator := weld demoIterated 112 64

/-- The unit tests' region: 1 MiB, 64-KiB pages. -/
def pageA0 : Allocator := freshAllocator (2 ^ 20) (2 ^ 16) 12345 "TestAllocator"

def pageS1 : Allocator × Nat := Allocate pageA0 32768 1

def pageS2 : Allocator × Nat := Allocate pageS1.1 65520 2

def pageS3 : Allocator × Nat := Allocate pageS2.1 115 3

/-- A writer on a pageless 1-MiB region, as the file-backed test does:
three allocations of 123, 456 and 789 bytes. -/
def demoLocal : Allocator :=
  let l1 := Allocate (freshAllocator (2 ^ 20) 0 12345 "") 123 123
  let l2 := Allocate l1.1 456 456
  (Allocate l2.1 789 789).1

def demoLocalImage : RegionImage := ⟨demoLocal.meta, demoLocal.blocks⟩

/-- The writer's region of `demoIterated`, reattached read-only over a byte
range sized exactly to the used prefix (as when the used prefix is written
to a file and mapped back). -/
def demoRO : Allocator :=
  attachOf ⟨demoIterated.meta, demoIterated.blocks⟩ (used demoIterated) true

def demoImage1Mi : RegionImage := ⟨pageA0.meta, pageA0.blocks⟩

def demoOps : List WriterOp :=
  [.alloc 5 1, .mkIter 64, .alloc 5 2, .setT 88 7, .mkIter 88, .mkIter 88]

theorem demoFresh_WF : WF demoFresh :=
  ⟨⟨rfl, rfl, rfl, by decide, by decide, by decide, by decide, by decide,
    by decide⟩,
   [], rfl, List.nodup_nil, rfl⟩

/-! ## The claims -/

/-- C1: if the iterable list is welded into a cycle by externally
overwriting a block's `next` field (so that following links from the head
keeps producing valid references for longer than the hop budget allows), a
full iteration — repeated `GetNextIterable` until 0 — yields at most
`hopBudget` references (it terminates, never hanging or stepping to an
unvalidated reference) and leaves the sticky corrupt flag set, so that
`IsCorrupt` returns `true`. -/
theorem claim_C1_cycle_iteration_bounded_corrupt (a : Allocator)
    (hcycle : validChain a 0 (hopBudget a + 1) = true) :
    (CountIterables a).1 ≤ hopBudget a ∧
    IsCorrupt (CountIterables a).2 = true := by
  have h := cycle_aux (a := a) (hopBudget a) ⟨0, 0⟩ (hopBudget a + 1) hcycle
    (by simp) (le_refl _)
  unfold CountIterables CreateIterator
  rw [h]
  exact ⟨le_refl _, IsCorrupt_setCorrupt a⟩

theorem claim_C1_witness :
    (validChain demoWeldedBack 0 (hopBudget demoWeldedBack + 1) = true ∧
      (CountIterables demoWeldedBack).1 ≤ hopBudget demoWeldedBack ∧
      IsCorrupt (CountIterables demoWeldedBack).2 = true) ∧
    (validChain demoWeldedSelf 0 (hopBudget demoWeldedSelf + 1) = true ∧
      (CountIterables demoWeldedSelf).1 ≤ hopBudget demoWeldedSelf ∧
      IsCorrupt (CountIterables demoWeldedSelf).2 = true) ∧
    (validChain demoWeldedHead 0 (hopBudget demoWeldedHead + 1) = true ∧
      (CountIterables demoWeldedHead).1 ≤ hopBudget demoWeldedHead ∧
      IsCorrupt (CountIterables demoWeldedHead).2 = true) :=
  ⟨⟨by decide, claim_C1_cycle_iteration_bounded_corrupt demoWeldedBack (by decide)⟩,
   ⟨by decide, claim_C1_cycle_iteration_bounded_corrupt demoWeldedSelf (by decide)⟩,
   ⟨by decide, claim_C1_cycle_iteration_bounded_corrupt demoWeldedHead (by decide)⟩⟩

/-- C2: in a fresh 1-MiB region with 64-KiB pages and alignment 8,
`Allocate(32768, 1)` returns a reference strictly between 0 and 65536;
`Allocate(65520, 2)` cannot fit in the remainder of the first page and
returns exactly 65536; `Allocate(115, 3)` returns exactly 131072 — an
allocation that would straddle a `page_size` boundary is advanced to start
at the next page boundary. -/
theorem claim_C2_page_boundaries :
    (0 < pageS1.2 ∧ pageS1.2 < 65536) ∧ pageS2.2 = 65536 ∧
    pageS3.2 = 131072 := by decide

/-- C7: constructing an allocator over a region whose cookie matches the
expected format attaches to it: the persisted header (id, name, page size,
total size) is taken over verbatim, `Id()` returns the persisted id, and
the caller-supplied id and name arguments are ignored — any two choices
yield the same allocator. -/
theorem claim_C7_attach_ignores_caller_id (mem : RegionImage)
    (ms ps id2 : Nat) (n2 : String) (ro : Bool)
    (hargs : constructArgsOK ms ps ro) (hck : mem.meta.cookie = kGlobalCookie) :
    constructAllocator mem ms ps id2 n2 ro = some (attachOf mem ms ro) ∧
    Id (attachOf mem ms ro) = mem.meta.id ∧
    Name (attachOf mem ms ro) = mem.meta.name ∧
    (attachOf mem ms ro).meta.page_size = mem.meta.page_size ∧
    (attachOf mem ms ro).meta.total_size = mem.meta.total_size ∧
    ∀ id1 n1, constructAllocator mem ms ps id1 n1 ro =
      constructAllocator mem ms ps id2 n2 ro := by
  have h1 : constructAllocator mem ms ps id2 n2 ro = some (attachOf mem ms ro) := by
    unfold constructAllocator
    rw [if_pos hargs, if_pos hck]
  refine ⟨h1, rfl, rfl, rfl, rfl, ?_⟩
  intro id1 n1
  rw [h1]
  unfold constructAllocator
  rw [if_pos hargs, if_pos hck]

theorem claim_C7_witness :
    constructArgsOK (2 ^ 20) (2 ^ 16) false ∧
    demoImage1Mi.meta.cookie = kGlobalCookie ∧
    Id (attachOf demoImage1Mi (2 ^ 20) false) = 12345 ∧
    (constructAllocator demoImage1Mi (2 ^ 20) (2 ^ 16) 0 "" false =
        some (attachOf demoImage1Mi (2 ^ 20) false) ∧
      Id (attachOf demoImage1Mi (2 ^ 20) false) = demoImage1Mi.meta.id ∧
      Name (attachOf demoImage1Mi (2 ^ 20) false) = demoImage1Mi.meta.name ∧
      (attachOf demoImage1Mi (2 ^ 20) false).meta.page_size =
        demoImage1Mi.meta.page_size ∧
      (attachOf demoImage1Mi (2 ^ 20) false).meta.total_size =
        demoImage1Mi.meta.total_size ∧
      ∀ id1 n1, constructAllocator demoImage1Mi (2 ^ 20) (2 ^ 16) id1 n1 false =
        constructAllocator demoImage1Mi (2 ^ 20) (2 ^ 16) 0 "" false) :=
  ⟨by decide, rfl, by decide,
   claim_C7_attach_ignores_caller_id demoImage1Mi (2 ^ 20) (2 ^ 16) 0 "" false
     (by decide) rfl⟩

/-- C8: `Allocate` with an invalid request — size 0, or size plus block
header exceeding the page capacity (hence any request larger than the
whole region) — returns 0, leaves the region bytes (header and blocks)
untouched, and records the call in the allocation histogram as a
zero-sized sample.  (This models release builds; debug builds assert.) -/
theorem claim_C8_invalid_request (a : Allocator) (size ty : Nat)
    (h : size = 0 ∨ pageSizeEff a < kSizeOfBlockHeader + size) :
    (Allocate a size ty).2 = 0 ∧
    (Allocate a size ty).1.meta = a.meta ∧
    (Allocate a size ty).1.blocks = a.blocks ∧
    (Allocate a size ty).1.allocs_histogram = a.allocs_histogram ++ [0] := by
  unfold Allocate
  rw [if_pos (by tauto)]
  exact ⟨rfl, rfl, rfl, rfl⟩

theorem claim_C8_witness :
    ((2 ^ 20 + 1 : Nat) = 0 ∨
      pageSizeEff pageA0 < kSizeOfBlockHeader + (2 ^ 20 + 1)) ∧
    (Allocate pageA0 (2 ^ 20 + 1) 0).2 = 0 ∧
    (Allocate pageA0 (2 ^ 20 + 1) 0).1.meta = pageA0.meta ∧
    (Allocate pageA0 (2 ^ 20 + 1) 0).1.blocks = pageA0.blocks ∧
    (Allocate pageA0 (2 ^ 20 + 1) 0).1.allocs_histogram =
      pageA0.allocs_histogram ++ [0] :=
  ⟨by decide, claim_C8_invalid_request pageA0 (2 ^ 20 + 1) 0 (by decide)⟩

/-- C9, counterexample: the claim's characterization of `IsFileAcceptable`
("true iff large enough for the header AND recorded `total_size` not
exceeding the actual length") is false on the code as pinned down by
`FilePersistentMemoryAllocatorTest.AcceptableTest`: a valid 1-MiB region
truncated to its used prefix (1488 bytes) must be — and is — acceptable,
yet its recorded `total_size` (1048576) exceeds the length. -/
theorem claim_C9_counterexample :
    IsFileAcceptable demoLocalImage (used demoLocal) = true ∧
    ¬ specFileAcceptable demoLocalImage (used demoLocal) ∧
    used demoLocal < demoLocalImage.meta.total_size ∧
    ¬ (IsFileAcceptable demoLocalImage (used demoLocal) = true ↔
        specFileAcceptable demoLocalImage (used demoLocal)) := by
  refine ⟨by decide, by decide, by decide, ?_⟩
  intro hiff
  exact (by decide : ¬ specFileAcceptable demoLocalImage (used demoLocal))
    (hiff.mp (by decide))

/-- C9, amended: `IsFileAcceptable` returns true iff the region is at
least large enough to hold the region header; the recorded `total_size` is
not consulted.  Consequently, for a region whose used size is at least the
header size, every truncation of length at least the used size is
acceptable, and whenever a file is rejected its length is strictly below
the used size. -/
theorem claim_C9_amended (mem : RegionImage) (len : Nat)
    (hused : kSizeOfRegionHeader ≤ mem.meta.freeptr) :
    (IsFileAcceptable mem len = true ↔ kSizeOfRegionHeader ≤ len) ∧
    (mem.meta.freeptr ≤ len → IsFileAcceptable mem len = true) ∧
    (IsFileAcceptable mem len = false → len < mem.meta.freeptr) := by
  unfold IsFileAcceptable
  refine ⟨by simp, ?_, ?_⟩
  · intro h
    simp
    omega
  · intro h
    simp at h
    omega

theorem claim_C9_witness :
    kSizeOfRegionHeader ≤ demoLocalImage.meta.freeptr ∧
    ((IsFileAcceptable demoLocalImage 1488 = true ↔
        kSizeOfRegionHeader ≤ 1488) ∧
      (demoLocalImage.meta.freeptr ≤ 1488 →
        IsFileAcceptable demoLocalImage 1488 = true) ∧
      (IsFileAcceptable demoLocalImage 1488 = false →
        1488 < demoLocalImage.meta.freeptr)) :=
  ⟨by decide, claim_C9_amended demoLocalImage 1488 (by decide)⟩

/-- C3: `GetAsObject(ref, expected_type)` succeeds iff the reference is
non-zero, aligned, within `[header_end, freeptr)`, the block carries the
committed cookie, its current type tag equals `expected_type`, and the
recorded block is large enough for the object; and after `SetType` changes
the tag to `t2`, `GetAsObject` with the old tag fails while `GetAsObject`
with `t2` succeeds. -/
theorem claim_C3_get_as_object (a : Allocator) (ref et sz t2 : Nat)
    (hro : a.readonly = false) (hne : t2 ≠ et) :
    (GetAsObject a ref et sz = true ↔
      (ref ≠ 0 ∧ ref % kAllocAlignment = 0 ∧ kSizeOfRegionHeader ≤ ref ∧
       ref < a.meta.freeptr ∧
       (getBlockHeader a ref).cookie = kBlockCookieAllocated ∧
       (getBlockHeader a ref).type = et ∧
       kSizeOfBlockHeader + sz ≤ (getBlockHeader a ref).size)) ∧
    (GetAsObject a ref et sz = true →
      GetType (SetType a ref t2) ref = t2 ∧
      GetAsObject (SetType a ref t2) ref et sz = false ∧
      GetAsObject (SetType a ref t2) ref t2 sz = true) := by
  constructor
  · unfold GetAsObject refValid
    rw [decide_eq_true_eq]
    tauto
  · intro hobj
    unfold GetAsObject at hobj
    rw [decide_eq_true_eq] at hobj
    obtain ⟨hv, hty, hsz⟩ := hobj
    have hst : SetType a ref t2 =
        { a with blocks := updateBlock (fun b => { b with type := t2 }) ref a.blocks } := by
      unfold SetType
      rw [if_neg (by simp [hro]), if_pos hv]
    obtain ⟨b, hlb⟩ := refValid_lookup hv
    have hgb0 : getBlockHeader a ref = b := by
      unfold getBlockHeader
      rw [hlb]
    have hgb : getBlockHeader (SetType a ref t2) ref = { b with type := t2 } := by
      rw [hst]
      unfold getBlockHeader
      rw [lookupRef_updateBlock, if_pos rfl, hlb]
      rfl
    have hv2 : refValid (SetType a ref t2) ref := by
      obtain ⟨g1, g2, g3, g4, g5⟩ := hv
      refine ⟨g1, g2, g3, ?_, ?_⟩
      · rw [hst]
        exact g4
      · rw [hgb, hgb0] at *
        exact g5
    refine ⟨?_, ?_, ?_⟩
    · unfold GetType
      rw [if_pos hv2, hgb]
    · unfold GetAsObject
      rw [decide_eq_false_iff_not]
      intro hcon
      exact hne (by simpa [hgb] using hcon.2.1)
    · unfold GetAsObject
      rw [decide_eq_true_eq]
      refine ⟨hv2, by simp [hgb], ?_⟩
      rw [hgb]
      rw [hgb0] at hsz
      simpa using hsz

theorem claim_C3_witness :
    demoIterated.readonly = false ∧ (9 : Nat) ≠ 1 ∧
    GetAsObject demoIterated 64 1 4 = true ∧
    GetType (SetType demoIterated 64 9) 64 = 9 ∧
    GetAsObject (SetType demoIterated 64 9) 64 1 4 = false ∧
    GetAsObject (SetType demoIterated 64 9) 64 9 4 = true := by
  have h := (claim_C3_get_as_object demoIterated 64 1 4 9 (by decide)
    (by decide)).2 (by decide)
  exact ⟨by decide, by decide, by decide, h.1, h.2.1, h.2.2⟩

/-- C4: every successful `Allocate(requested_size, type)` hands back a
reference whose `GetAllocSize` is at least the requested size and strictly
less than the requested size plus `kAllocAlignment` — the usable size is
the request rounded up by at most one alignment unit.  (The cursor
invariants assumed here hold in every reachable state.) -/
theorem claim_C4_alloc_size_bounds (a : Allocator) (size ty : Nat)
    (hlb : kSizeOfRegionHeader ≤ a.meta.freeptr)
    (hfa : kAllocAlignment ∣ a.meta.freeptr)
    (hpa : kAllocAlignment ∣ pageSizeEff a)
    (hne : (Allocate a size ty).2 ≠ 0) :
    size ≤ GetAllocSize (Allocate a size ty).1 (Allocate a size ty).2 ∧
    GetAllocSize (Allocate a size ty).1 (Allocate a size ty).2 <
      size + kAllocAlignment := by
  unfold Allocate at hne ⊢
  by_cases h1 : a.readonly = true ∨ size = 0 ∨
      pageSizeEff a < kSizeOfBlockHeader + size ∨ a.meta.full = true
  · rw [if_pos h1] at hne
    exact absurd rfl hne
  · rw [if_neg h1] at hne ⊢
    have hsz : size ≠ 0 := by tauto
    by_cases h2 : a.meta.total_size < a.meta.freeptr + blockSizeFor size
    · rw [if_pos h2] at hne
      exact absurd rfl hne
    · rw [if_neg h2] at hne ⊢
      by_cases h3 : a.meta.total_size <
          candidateFor a (blockSizeFor size) + blockSizeFor size
      · rw [if_pos h3] at hne
        exact absurd rfl hne
      · rw [if_neg h3] at hne ⊢
        have hbsb := blockSizeFor_bounds size hsz
        have hge := candidateFor_ge a (blockSizeFor size)
        have hal := candidateFor_align (a := a) (blockSizeFor size) hfa hpa
        have halign8 : (0 : Nat) < kAllocAlignment := by unfold kAllocAlignment; omega
        have hh : (64 : Nat) ≤ kSizeOfRegionHeader := by unfold kSizeOfRegionHeader; omega
        have hvc : refValid (allocCommit a (candidateFor a (blockSizeFor size))
            (blockSizeFor size) ty size) (candidateFor a (blockSizeFor size)) := by
          refine ⟨?_, ?_, ?_, ?_, ?_⟩
          · unfold kSizeOfRegionHeader at hlb
            omega
          · exact Nat.mod_eq_zero_of_dvd hal
          · omega
          · show candidateFor a (blockSizeFor size) <
              candidateFor a (blockSizeFor size) + blockSizeFor size
            unfold kMinBlockSize at hbsb
            omega
          · show (getBlockHeader _ (candidateFor a (blockSizeFor size))).cookie =
              kBlockCookieAllocated
            unfold getBlockHeader allocCommit recordSample
            simp [lookupRef]
        unfold GetAllocSize
        rw [if_pos hvc]
        have hgb : getBlockHeader (allocCommit a (candidateFor a (blockSizeFor size))
            (blockSizeFor size) ty size) (candidateFor a (blockSizeFor size)) =
            ⟨blockSizeFor size, ty, kBlockCookieAllocated, 0⟩ := by
          unfold getBlockHeader allocCommit recordSample
          simp [lookupRef]
        rw [hgb]
        show size ≤ blockSizeFor size - kSizeOfBlockHeader ∧
          blockSizeFor size - kSizeOfBlockHeader < size + kAllocAlignment
        unfold kSizeOfBlockHeader kAllocAlignment at hbsb ⊢
        omega

theorem claim_C4_witness :
    kSizeOfRegionHeader ≤ demoFresh.meta.freeptr ∧
    kAllocAlignment ∣ demoFresh.meta.freeptr ∧
    kAllocAlignment ∣ pageSizeEff demoFresh ∧
    (Allocate demoFresh 5 1).2 ≠ 0 ∧
    (5 ≤ GetAllocSize (Allocate demoFresh 5 1).1 (Allocate demoFresh 5 1).2 ∧
      GetAllocSize (Allocate demoFresh 5 1).1 (Allocate demoFresh 5 1).2 <
        5 + kAllocAlignment) :=
  ⟨by decide, by decide, by decide, by decide,
   claim_C4_alloc_size_bounds demoFresh 5 1 (by decide) (by decide) (by decide)
     (by decide)⟩

/-- C6: on a read-only attach every mutating operation is a failing no-op —
`Allocate` returns 0 and leaves the region bytes (header and blocks)
untouched, `MakeIterable` reports failure and changes nothing, `SetType`
changes nothing — while iteration and `GetAsObject` depend only on the
region bytes (any allocator over the same bytes, such as the writer that
produced them, yields the same references and types, and `GetAsObject`
still works, giving the same answers), and for a byte range sized exactly
to the used prefix `GetMemoryInfo` reports `total` equal to that length
and `free` equal to 0. -/
theorem claim_C6_readonly_noop (a : Allocator) (h : a.readonly = true)
    (s t r ty : Nat) :
    (Allocate a s t).2 = 0 ∧
    (Allocate a s t).1.meta = a.meta ∧ (Allocate a s t).1.blocks = a.blocks ∧
    (MakeIterable a r).2 = false ∧ (MakeIterable a r).1 = a ∧
    SetType a r ty = a ∧
    (∀ b : Allocator, ∀ it : Iterator, b.meta = a.meta → b.blocks = a.blocks →
      (GetNextIterable b it).ref = (GetNextIterable a it).ref ∧
      (GetNextIterable b it).rtype = (GetNextIterable a it).rtype) ∧
    (∀ b : Allocator, ∀ k et sz : Nat, b.meta = a.meta → b.blocks = a.blocks →
      GetAsObject a k et sz = GetAsObject b k et sz) ∧
    (a.mem_size = used a → GetMemoryInfo a = ⟨used a, 0⟩) := by
  have hAll : Allocate a s t = (recordSample a 0, 0) := by
    unfold Allocate
    rw [if_pos (Or.inl h)]
  have hMk : MakeIterable a r = (a, false) := by
    unfold MakeIterable
    rw [if_pos h]
  have hSt : SetType a r ty = a := by
    unfold SetType
    rw [if_pos h]
  refine ⟨by rw [hAll], by rw [hAll]; rfl, by rw [hAll]; rfl, by rw [hMk],
    by rw [hMk], hSt, ?_, ?_, ?_⟩
  · intro b it hm hbl
    have hnf : ∀ p, nextFrom b p = nextFrom a p :=
      nextFrom_congr (by rw [hm]) hbl
    have hgb : ∀ k, getBlockHeader b k = getBlockHeader a k := by
      intro k
      unfold getBlockHeader
      rw [hbl]
    have hrv : ∀ k, refValid b k ↔ refValid a k :=
      refValid_congr (by rw [hm]) hbl
    have hhb : hopBudget b = hopBudget a := by
      unfold hopBudget
      rw [hm]
    unfold GetNextIterable
    rw [hnf, hhb, hgb]
    by_cases h1 : nextFrom a it.last = 0
    · rw [if_pos h1, if_pos h1]
      exact ⟨rfl, rfl⟩
    · rw [if_neg h1, if_neg h1]
      by_cases h2 : refValid a (nextFrom a it.last)
      · rw [if_neg (not_not_intro ((hrv _).mpr h2)),
          if_neg (not_not_intro h2)]
        by_cases h3 : hopBudget a < it.niter + 1
        · rw [if_pos h3, if_pos h3]
          exact ⟨rfl, rfl⟩
        · rw [if_neg h3, if_neg h3]
          exact ⟨rfl, rfl⟩
      · rw [if_pos (fun hcon => h2 ((hrv _).mp hcon)), if_pos h2]
        exact ⟨rfl, rfl⟩
  · intro b k et sz hm hbl
    have hgb : getBlockHeader b k = getBlockHeader a k := by
      unfold getBlockHeader
      rw [hbl]
    have hrv : refValid b k ↔ refValid a k := refValid_congr (by rw [hm]) hbl k
    unfold GetAsObject
    rw [decide_eq_decide, hgb, hrv]
  · intro hms
    unfold used at hms
    unfold GetMemoryInfo used
    rw [hms]
    simp

theorem claim_C6_witness :
    demoRO.readonly = true ∧
    ((Allocate demoRO 5 9).2 = 0 ∧
      (Allocate demoRO 5 9).1.meta = demoRO.meta ∧
      (Allocate demoRO 5 9).1.blocks = demoRO.blocks ∧
      (MakeIterable demoRO 64).2 = false ∧ (MakeIterable demoRO 64).1 = demoRO ∧
      SetType demoRO 64 7 = demoRO ∧
      (∀ b : Allocator, ∀ it : Iterator, b.meta = demoRO.meta →
        b.blocks = demoRO.blocks →
        (GetNextIterable b it).ref = (GetNextIterable demoRO it).ref ∧
        (GetNextIterable b it).rtype = (GetNextIterable demoRO it).rtype) ∧
      (∀ b : Allocator, ∀ k et sz : Nat, b.meta = demoRO.meta →
        b.blocks = demoRO.blocks →
        GetAsObject demoRO k et sz = GetAsObject b k et sz) ∧
      (demoRO.mem_size = used demoRO →
        GetMemoryInfo demoRO = ⟨used demoRO, 0⟩)) ∧
    demoRO.mem_size = used demoRO ∧
    demoIterated.meta = demoRO.meta ∧ demoIterated.blocks = demoRO.blocks ∧
    GetAsObject demoRO 64 1 4 = true ∧
    GetAsObject demoRO 88 2 4 = true ∧
    GetAsObject demoRO 64 1 4 = GetAsObject demoIterated 64 1 4 :=
  ⟨rfl, claim_C6_readonly_noop demoRO rfl 5 9 64 7, by decide, by decide,
   by decide, by decide, by decide, by decide⟩

/-- C10: an iterator is not permanently exhausted by reaching end-of-list:
if `GetNextIterable` returned 0 with the iterator standing at the true end
of the list (at the head of an empty list, or at the block the next
publication will be linked after) and a committed block is then made
iterable, the next `GetNextIterable` on that same iterator returns the
newly published block and its type. -/
theorem claim_C10_iterator_not_exhausted (a : Allocator) (it : Iterator)
    (r : Nat)
    (_hend : (GetNextIterable a it).ref = 0)
    (hpos : if a.meta.queue = 0 then it.last = 0
      else findTail a a.meta.tailptr (hopBudget a + 1) = some it.last)
    (hbud : it.niter + 1 ≤ hopBudget a)
    (hsucc : (MakeIterable a r).2 = true) :
    (GetNextIterable (MakeIterable a r).1 it).ref = r ∧
    (GetNextIterable (MakeIterable a r).1 it).rtype =
      (getBlockHeader a r).type := by
  unfold MakeIterable at hsucc ⊢
  by_cases hro : a.readonly = true
  · rw [if_pos hro] at hsucc
    exact absurd hsucc (by simp)
  rw [if_neg hro] at hsucc ⊢
  by_cases hv : refValid a r
  swap
  · rw [if_pos hv] at hsucc
    exact absurd hsucc (by simp)
  rw [if_neg (not_not_intro hv)] at hsucc ⊢
  by_cases hn : (getBlockHeader a r).next = 0
  swap
  · rw [if_pos hn] at hsucc
    exact absurd hsucc (by simp)
  rw [if_neg (not_not_intro hn)] at hsucc ⊢
  by_cases hq : a.meta.queue = 0
  · rw [if_pos hq] at hsucc ⊢
    rw [if_pos hq] at hpos
    have hv2 : refValid ({ a with meta :=
        { a.meta with queue := r, tailptr := r } }) r :=
      (refValid_congr (a := a) rfl rfl r).mpr hv
    have hnf : nextFrom ({ a with meta :=
        { a.meta with queue := r, tailptr := r } }) it.last = r := by
      rw [hpos]
      rfl
    have hhb : hopBudget ({ a with meta :=
        { a.meta with queue := r, tailptr := r } }) = hopBudget a := rfl
    unfold GetNextIterable
    rw [hnf, if_neg (refValid_ne_zero hv), if_neg (not_not_intro hv2), hhb,
      if_neg (by omega)]
    exact ⟨rfl, rfl⟩
  · rw [if_neg hq] at hsucc ⊢
    rw [if_neg hq] at hpos
    rw [hpos] at hsucc ⊢
    simp only [] at hsucc ⊢
    by_cases hte : it.last = r
    · rw [if_pos hte] at hsucc
      exact absurd hsucc (by simp)
    · rw [if_neg hte] at hsucc ⊢
      have hftp := findTail_some (hopBudget a + 1) a.meta.tailptr it.last hpos
      have ht0 : it.last ≠ 0 := refValid_ne_zero hftp.1
      obtain ⟨b, hlb⟩ := refValid_lookup hftp.1
      have hbl : (({ a with
          meta := { a.meta with tailptr := r },
          blocks := updateBlock (fun b => { b with next := r }) it.last
            a.blocks } : Allocator)).blocks =
          updateBlock (fun b => { b with next := r }) it.last a.blocks := rfl
      have hnf : nextFrom ({ a with
          meta := { a.meta with tailptr := r },
          blocks := updateBlock (fun b => { b with next := r }) it.last
            a.blocks } : Allocator) it.last = r := by
        unfold nextFrom
        rw [if_neg ht0, getBlockHeader_update_self hbl hlb]
      have hv2 : refValid ({ a with
          meta := { a.meta with tailptr := r },
          blocks := updateBlock (fun b => { b with next := r }) it.last
            a.blocks } : Allocator) r :=
        (refValid_update_pres hbl rfl (fun b => rfl) r).mpr hv
      have hhb : hopBudget ({ a with
          meta := { a.meta with tailptr := r },
          blocks := updateBlock (fun b => { b with next := r }) it.last
            a.blocks } : Allocator) = hopBudget a := rfl
      unfold GetNextIterable
      rw [hnf, if_neg (refValid_ne_zero hv), if_neg (not_not_intro hv2), hhb,
        if_neg (by omega)]
      refine ⟨rfl, ?_⟩
      show (getBlockHeader _ r).type = (getBlockHeader a r).type
      rw [getBlockHeader_update_ne hbl r (fun hh => hte hh.symm)]

theorem claim_C10_witness :
    (GetNextIterable demoOnce.1 CreateIterator).ref = 0 ∧
    (MakeIterable demoOnce.1 64).2 = true ∧
    (GetNextIterable (MakeIterable demoOnce.1 64).1 CreateIterator).ref = 64 ∧
    (GetNextIterable (MakeIterable demoOnce.1 64).1 CreateIterator).rtype =
      (getBlockHeader demoOnce.1 64).type ∧
    (getBlockHeader demoOnce.1 64).type = 1 := by
  have h := claim_C10_iterator_not_exhausted demoOnce.1 CreateIterator 64
    (by decide) (by decide) (by decide) (by decide)
  exact ⟨by decide, by decide, h.1, h.2, by decide⟩

/-- C5: with concurrency modelled as an arbitrary interleaving of the
writers' atomic operations (allocate, publish, retag), starting from any
well-formed state: observations of `CountIterables` taken after any prefix
of the interleaving are monotonically non-decreasing; after the whole
interleaving has run (in particular once the writers have filled the
region and stopped), `CountIterables` equals its initial value plus the
number of `MakeIterable` calls that completed successfully across all
writers; `IsCorrupt` remains false; and the observation itself never
disturbs the state. -/
theorem claim_C5_concurrent_iterable_counts (a : Allocator) (h : WF a)
    (ops : List WriterOp) :
    IsCorrupt (runOps a ops) = false ∧
    (CountIterables (runOps a ops)).1 = (CountIterables a).1 + succCount a ops ∧
    (∀ p q, ops = p ++ q →
      (CountIterables (runOps a p)).1 ≤ (CountIterables (runOps a ops)).1) ∧
    (CountIterables (runOps a ops)).2 = runOps a ops := by
  obtain ⟨hb, L, hc⟩ := h
  obtain ⟨hb2, M, hc2, hlen⟩ := runOps_step hb hc ops
  have hca := CountIterables_WF hb hc
  have hcf := CountIterables_WF hb2 hc2
  refine ⟨?_, ?_, ?_, ?_⟩
  · unfold IsCorrupt
    rw [hb2.corr, hb2.shadow]
    rfl
  · rw [hcf, hca]
    simpa using hlen
  · intro p q hpq
    subst hpq
    obtain ⟨hbp, Mp, hcp, hlenp⟩ := runOps_step hb hc p
    have hcpv := CountIterables_WF hbp hcp
    rw [hcpv, hcf]
    show Mp.length ≤ M.length
    rw [hlen, hlenp, succCount_append]
    omega
  · rw [hcf]

theorem claim_C5_witness :
    WF demoFresh ∧
    (IsCorrupt (runOps demoFresh demoOps) = false ∧
      (CountIterables (runOps demoFresh demoOps)).1 =
        (CountIterables demoFresh).1 + succCount demoFresh demoOps ∧
      (∀ p q, demoOps = p ++ q →
        (CountIterables (runOps demoFresh p)).1 ≤
          (CountIterables (runOps demoFresh demoOps)).1) ∧
      (CountIterables (runOps demoFresh demoOps)).2 = runOps demoFresh demoOps) ∧
    (CountIterables (runOps demoFresh demoOps)).1 = 2 ∧
    succCount demoFresh demoOps = 2 :=
  ⟨demoFresh_WF,
   claim_C5_concurrent_iterable_counts demoFresh demoFresh_WF demoOps,
   by decide, by decide⟩

end PMA
